import Mathlib

/-!
Verification of the helper functions of the `population_structure` package
(`src/population_structure/helper_funcs/helper_funcs.py`).

The Python source works with NumPy arrays of 64-bit floats.  We embed the
arithmetic over exact rationals (`ℚ`): every claim we settle is about the
algebraic structure of the computations (which entries are read, how index
ranges are formed, which closed formula an expression equals), not about
rounding of individual float operations.  The single place where IEEE-754
double rounding is semantically essential is `comb`, which Python computes
as `int(factorial n / (factorial k * factorial (n-k)))` using float true
division; there we model the rounding exactly (see `roundNat53`).

Matrices are embedded as total functions `ℕ → ℕ → _` together with an
explicit dimension `n`; the Python code never indexes out of range for
inputs of the documented shapes, so this is observationally equivalent to
the array semantics.  The Fst/coalescence matrices handled by the graph
decomposition engine take values in `WithTop ℚ`, whose `⊤` models the IEEE
`inf` used by `reassemble_matrix` as the initialization value for
coalescence matrices.
-/

namespace PopulationStructure

/-- Fuel-based binary logarithm (`log2F fuel q = ⌊log₂ q⌋` whenever
`fuel ≥ q`); structural recursion keeps it kernel-reducible on the large
concrete inputs appearing in the `comb` theorems. -/
def log2F : ℕ → ℕ → ℕ
  | 0, _ => 0
  | fuel + 1, q => if q < 2 then 0 else log2F fuel (q / 2) + 1

/-- Round a natural number to the nearest IEEE-754 double (round half to
even).  For `q < 2^53` the value is exact; otherwise it is rounded to the
grid of doubles with spacing `2 ^ (⌊log₂ q⌋ - 52)`.  This is what Python's
float true division `a / b` of two nonnegative ints produces whenever the
exact quotient is the integer `q` (CPython's long true division is
correctly rounded), and `int()` of the resulting integral double is the
integer it represents. -/
def roundNat53 (q : ℕ) : ℕ :=
  if q < 2 ^ 53 then q
  else
    let g := 2 ^ (log2F q q - 52)
    let lo := q / g
    let r := q % g
    if 2 * r < g then lo * g
    else if g < 2 * r then (lo + 1) * g
    else if lo % 2 = 0 then lo * g else (lo + 1) * g

/-- Embedding of `helper_funcs.comb`:
`int(math.factorial(n) / (math.factorial(k) * math.factorial(n - k)))`.
For `0 ≤ k ≤ n` the denominator divides the numerator, so Python's float
true division produces the nearest double of the exact integer quotient
(the `ℕ` division below is exact) and `int()` truncation returns the
integer that double represents, i.e. `roundNat53` of the quotient. -/
def comb (n k : ℕ) : ℕ :=
  roundNat53 (Nat.factorial n / (Nat.factorial k * Nat.factorial (n - k)))

lemma choose_62_31_value : Nat.choose 62 31 = 465428353255261088 := by
  have h1 : Nat.choose 62 31 * (Nat.factorial 31 * Nat.factorial 31) =
      Nat.factorial 62 := by
    have h := Nat.choose_mul_factorial_mul_factorial (show 31 ≤ 62 by decide)
    calc Nat.choose 62 31 * (Nat.factorial 31 * Nat.factorial 31)
        = Nat.choose 62 31 * Nat.factorial 31 * Nat.factorial (62 - 31) := by
          norm_num [Nat.mul_assoc]
      _ = Nat.factorial 62 := h
  have h2 : (465428353255261088 : ℕ) * (Nat.factorial 31 * Nat.factorial 31) =
      Nat.factorial 62 := by decide
  exact Nat.eq_of_mul_eq_mul_right (by positivity) (h1.trans h2.symm)

/-- Claim C3: `comb(n, k)` is claimed to return the exact binomial
coefficient for every `0 ≤ k ≤ n`.  The code computes it through float
true division, which rounds once the quotient exceeds `2^53`: at
`n = 62, k = 31` the code returns `465428353255261056` while
`C(62,31) = 465428353255261088` (the quotient is exactly halfway between
two doubles and rounds down to even).  The spec's demand of an exact
integer is the clear intent, so this is a bug in the code. -/
theorem comb_62_31_inexact :
    comb 62 31 = 465428353255261056 ∧
    Nat.choose 62 31 = 465428353255261088 ∧
    comb 62 31 ≠ Nat.choose 62 31 := by
  refine ⟨by decide, choose_62_31_value, ?_⟩
  rw [choose_62_31_value]
  decide

/-- For `n ≥ 2` the factorial ratio computed by `comb n 2` is the exact
integer `n (n-1) / 2` before rounding. -/
lemma comb_two (n : ℕ) (h : 2 ≤ n) : comb n 2 = roundNat53 (n * (n - 1) / 2) := by
  obtain ⟨m, rfl⟩ := Nat.exists_eq_add_of_le h
  unfold comb
  have hsub : 2 + m - 2 = m := by omega
  have hfac : Nat.factorial (2 + m) = ((m + 2) * (m + 1)) * Nat.factorial m := by
    rw [show 2 + m = m + 2 by omega, Nat.factorial_succ, Nat.factorial_succ,
      Nat.mul_assoc]
  rw [hsub, hfac, show Nat.factorial 2 = 2 from rfl,
    Nat.mul_div_mul_right _ _ m.factorial_pos]
  congr 1
  have h1 : 2 + m - 1 = m + 1 := by omega
  rw [h1, Nat.add_comm 2 m]

/-- Claim C2: the layout of `compute_coalescence` places the diagonal
coalescence times at offset `nC2 = comb(n, 2)` of the unknown vector.  The
claim says this offset is exactly `C(n,2)` for every `n ≥ 2`; but `comb`
goes through float division, and at `n = 134217730` the quotient
`C(n,2) = 9007199456067585` is odd and larger than `2^53`, so the float
rounds to `C(n,2) - 1`.  From that `n` on, `compute_coalescence` reads the
diagonal times from the wrong offset, so the residuals are not the ones the
claim describes. -/
theorem comb_float_slip_at_134217730 :
    comb 134217730 2 = Nat.choose 134217730 2 - 1 ∧
    Nat.choose 134217730 2 = 9007199456067585 := by
  have hc : Nat.choose 134217730 2 = 9007199456067585 := by
    rw [Nat.choose_two_right]
  refine ⟨?_, hc⟩
  rw [comb_two 134217730 (by decide), hc]
  decide

/-! ### The coalescence-only objective (`helper_funcs.compute_coalescence`) -/

/-- The pair list traversed by the double loop of `compute_coalescence`:
`for i in range(nC2): for j in range(i+1, n)` with `nC2 = comb(n, 2)`.
Note the source's outer bound is `comb n 2`, not `n`; the inner range is
empty for `i ≥ n - 1`, so the same pairs are produced by any outer bound
`≥ n - 1`. -/
def ccPairs (n : ℕ) : List (ℕ × ℕ) :=
  (List.range (comb n 2)).flatMap (fun i =>
    (List.range' (i + 1) (n - (i + 1))).map (fun j => (i, j)))

/-- Embedding of the equation list of `helper_funcs.compute_coalescence`:
the `k`-th appended equation (`k` is the running index, incremented once
per append) is `t[k] - 0.5 * (t[nC2+i] + t[nC2+j]) * (1+f[k])/(1-f[k])`
where `(i, j)` is the `k`-th pair. -/
def compute_coalescence_eqs (t f : ℕ → ℚ) (n : ℕ) : List ℚ :=
  (ccPairs n).enum.map (fun kij =>
    t kij.1 - 1 / 2 * (t (comb n 2 + kij.2.1) + t (comb n 2 + kij.2.2)) *
      ((1 + f kij.1) / (1 - f kij.1)))

/-- Embedding of `helper_funcs.compute_coalescence`: the Euclidean norm of
the equation list (`np.linalg.norm`). -/
noncomputable def compute_coalescence (t f : ℕ → ℚ) (n : ℕ) : ℝ :=
  Real.sqrt (((compute_coalescence_eqs t f n).map (fun x => ((x : ℝ)) ^ 2)).sum)

lemma flatMap_range_stable {α : Type} (g : ℕ → List α) (m a : ℕ)
    (hg : ∀ i, m ≤ i → g i = []) (ha : m ≤ a) :
    (List.range a).flatMap g = (List.range m).flatMap g := by
  induction a, ha using Nat.le_induction with
  | base => rfl
  | succ a ha ih =>
    rw [List.range_succ, List.flatMap_append, ih]
    simp [hg a ha]

lemma choose_two_ge (n : ℕ) (h : 2 ≤ n) : n - 1 ≤ n.choose 2 := by
  rw [Nat.choose_two_right, Nat.le_div_iff_mul_le (by omega)]
  calc (n - 1) * 2 ≤ (n - 1) * n := Nat.mul_le_mul_left _ h
    _ = n * (n - 1) := Nat.mul_comm _ _

/-- Supporting fact for claim C2: whenever the float division inside
`comb` is exact (`comb n 2 = C(n,2)`), the residual list of
`compute_coalescence` has exactly the layout the claim describes — the
`k`-th entry, for the `k`-th pair `(i, j)` of the upper-triangular
enumeration `(0,1), …, (0,n-1), (1,2), …`, is
`t[k] - 0.5 (t[C(n,2)+i] + t[C(n,2)+j]) (1+f[k])/(1-f[k])`, and there are
exactly `C(n,2)` entries.  At `n = 134217730` the premise fails (see
`comb_float_slip_at_134217730`) and the diagonal times are read from the
wrong offset. -/
theorem compute_coalescence_eqs_spec (t f : ℕ → ℚ) (n : ℕ) (h2 : 2 ≤ n)
    (hcomb : comb n 2 = n.choose 2) :
    compute_coalescence_eqs t f n =
      (((List.range n).flatMap (fun i =>
        (List.range' (i + 1) (n - (i + 1))).map (fun j => (i, j)))).enum.map
        (fun kij => t kij.1 -
          1 / 2 * (t (n.choose 2 + kij.2.1) + t (n.choose 2 + kij.2.2)) *
            ((1 + f kij.1) / (1 - f kij.1)))) ∧
    (compute_coalescence_eqs t f n).length = n.choose 2 := by
  have hg : ∀ i, n - 1 ≤ i →
      (List.range' (i + 1) (n - (i + 1))).map (fun j => ((i, j) : ℕ × ℕ)) = [] := by
    intro i hi
    rw [show n - (i + 1) = 0 by omega]
    rfl
  have hpairs : ccPairs n = (List.range n).flatMap (fun i =>
      (List.range' (i + 1) (n - (i + 1))).map (fun j => (i, j))) := by
    rw [ccPairs, hcomb,
      flatMap_range_stable _ (n - 1) (n.choose 2) hg (choose_two_ge n h2),
      flatMap_range_stable _ (n - 1) n hg (by omega)]
  constructor
  · rw [compute_coalescence_eqs, hpairs, hcomb]
  · rw [compute_coalescence_eqs, List.length_map, List.enum_length, hpairs]
    have hlen : ((List.range n).flatMap (fun i =>
        (List.range' (i + 1) (n - (i + 1))).map (fun j => ((i, j) : ℕ × ℕ)))).length =
        ((List.range n).map (fun i => n - 1 - i)).sum := by
      rw [List.length_flatMap]
      congr 1
      apply List.map_congr_left
      intro a _
      simp only [Function.comp_apply, List.length_map]
      rw [List.length_range']
      omega
    rw [hlen, show ((List.range n).map (fun i => n - 1 - i)).sum =
        ∑ i in Finset.range n, (n - 1 - i) from rfl,
      Finset.sum_range_reflect (fun i => i) n, Finset.sum_range_id,
      Nat.choose_two_right]

/-! ### Matrix distance (`helper_funcs.matrix_distance`) -/

/-- Embedding of `helper_funcs.matrix_distance`: the sum of the absolute
values of all `n²` entrywise differences (diagonal included), divided by
`n² - n`.  When `n² - n = 0` (that is, `n ≤ 1`) Python raises a
`ZeroDivisionError`; we model the raised error as `none`. -/
def matrix_distance (a b : ℕ → ℕ → ℚ) (n : ℕ) : Option ℚ :=
  if n ^ 2 - n = 0 then none
  else some ((((List.range n).map (fun i =>
    ((List.range n).map (fun j => |a i j - b i j|)).sum)).sum) / ((n ^ 2 - n : ℕ) : ℚ))

lemma sq_sub_ne_zero {n : ℕ} (h : 2 ≤ n) : n ^ 2 - n ≠ 0 := by
  have h2 : n * 2 ≤ n * n := Nat.mul_le_mul_left n h
  have : n ^ 2 = n * n := sq n
  omega

/-- Claim C9: for `n ≥ 2`, `matrix_distance` returns the sum of all `n²`
absolute entrywise differences (diagonal included) divided by `n² - n`;
consequently the distance of a matrix to itself is `0` and the distance is
symmetric in its two arguments. -/
theorem matrix_distance_spec (a b : ℕ → ℕ → ℚ) (n : ℕ) (h : 2 ≤ n) :
    matrix_distance a b n =
      some ((((List.range n).map (fun i =>
        ((List.range n).map (fun j => |a i j - b i j|)).sum)).sum) /
          ((n ^ 2 - n : ℕ) : ℚ)) ∧
    matrix_distance a a n = some 0 ∧
    matrix_distance a b n = matrix_distance b a n := by
  have hne := sq_sub_ne_zero h
  refine ⟨by rw [matrix_distance, if_neg hne], ?_, ?_⟩
  · rw [matrix_distance, if_neg hne]
    simp
  · rw [matrix_distance, matrix_distance, if_neg hne, if_neg hne]
    simp [abs_sub_comm]

theorem matrix_distance_spec_witness :
    2 ≤ 2 ∧ matrix_distance (fun _ _ => (0 : ℚ)) (fun _ _ => (0 : ℚ)) 2 = some 0 :=
  ⟨by decide, (matrix_distance_spec (fun _ _ => (0 : ℚ)) (fun _ _ => (0 : ℚ)) 2
    (by decide)).2.1⟩

/-- Claim C10: on `1 × 1` matrices the normalizing denominator `n² - n` is
zero, so `matrix_distance` raises a division-by-zero error (modelled as
`none`) instead of returning a number; for every `n ≥ 2` it returns a
value. -/
theorem matrix_distance_one_by_one :
    (∀ a b : ℕ → ℕ → ℚ, matrix_distance a b 1 = none) ∧
    (∀ (a b : ℕ → ℕ → ℚ) (n : ℕ), 2 ≤ n → (matrix_distance a b n).isSome = true) := by
  constructor
  · intro a b
    rw [matrix_distance, if_pos (by norm_num)]
  · intro a b n hn
    rw [matrix_distance, if_neg (sq_sub_ne_zero hn)]
    rfl

theorem matrix_distance_one_by_one_witness :
    matrix_distance (fun _ _ => (0 : ℚ)) (fun _ _ => (1 : ℚ)) 1 = none ∧
    (matrix_distance (fun _ _ => (0 : ℚ)) (fun _ _ => (1 : ℚ)) 2).isSome = true :=
  ⟨matrix_distance_one_by_one.1 _ _, matrix_distance_one_by_one.2 _ _ 2 (by decide)⟩

/-! ### The within-vs-between feasibility predicate
(`helper_funcs.check_constraint`) -/

/-- First-occurrence argmin of row `i` over columns `0, …, n-1`, exactly as
NumPy's `argmin(axis=1)` computes it: scan left to right, replace the
current best only on a strictly smaller value. -/
def rowArgmin (t : ℕ → ℕ → ℚ) (n i : ℕ) : ℕ :=
  (List.range n).foldl (fun best j => if t i j < t i best then j else best) 0

/-- Embedding of `helper_funcs.check_constraint`: true iff for every row
the (first-occurrence) argmin position is the diagonal position.  NumPy's
`argmin(axis=1)` raises a `ValueError` whenever the reduced axis has
length `0` — for an `n × n` matrix, exactly when `n = 0` — so the raised
error is modelled as `none` and the returned boolean as `some`. -/
def check_constraint (t : ℕ → ℕ → ℚ) (n : ℕ) : Option Bool :=
  if n = 0 then none
  else some ((List.range n).all (fun i => rowArgmin t n i == i))

lemma rowArgmin_spec (t : ℕ → ℕ → ℚ) (i : ℕ) (n : ℕ) :
    (rowArgmin t n i = 0 ∨ rowArgmin t n i < n) ∧
    (∀ j, j < n → t i (rowArgmin t n i) ≤ t i j) ∧
    (∀ j, j < rowArgmin t n i → t i (rowArgmin t n i) < t i j) := by
  induction n with
  | zero => refine ⟨Or.inl rfl, by omega, ?_⟩
            simp [rowArgmin]
  | succ n ih =>
    have hstep : rowArgmin t (n + 1) i =
        if t i n < t i (rowArgmin t n i) then n else rowArgmin t n i := by
      unfold rowArgmin
      rw [List.range_succ, List.foldl_append]
      rfl
    obtain ⟨hb, hmin, hfirst⟩ := ih
    by_cases hlt : t i n < t i (rowArgmin t n i)
    · rw [hstep, if_pos hlt]
      refine ⟨Or.inr (by omega), ?_, ?_⟩
      · intro j hj
        rcases Nat.lt_succ_iff_lt_or_eq.mp hj with hj' | hj'
        · exact le_of_lt (lt_of_lt_of_le hlt (hmin j hj'))
        · rw [hj']
      · intro j hj
        exact lt_of_lt_of_le hlt (hmin j hj)
    · rw [hstep, if_neg hlt]
      refine ⟨?_, ?_, hfirst⟩
      · rcases hb with hb | hb
        · exact Or.inl hb
        · exact Or.inr (by omega)
      · intro j hj
        rcases Nat.lt_succ_iff_lt_or_eq.mp hj with hj' | hj'
        · exact hmin j hj'
        · rw [hj']; exact le_of_not_lt hlt

lemma rowArgmin_eq_iff (t : ℕ → ℕ → ℚ) (n i : ℕ) (hi : i < n) :
    rowArgmin t n i = i ↔ (∀ j, j < n → t i i ≤ t i j) ∧ (∀ j, j < i → t i i < t i j) := by
  obtain ⟨hb, hmin, hfirst⟩ := rowArgmin_spec t i n
  constructor
  · intro h
    rw [h] at hmin hfirst
    exact ⟨hmin, hfirst⟩
  · rintro ⟨h1, h2⟩
    have hbn : rowArgmin t n i < n := by
      rcases hb with hb | hb
      · omega
      · exact hb
    have heq : t i (rowArgmin t n i) = t i i :=
      le_antisymm (hmin i hi) (h1 _ hbn)
    rcases Nat.lt_trichotomy (rowArgmin t n i) i with hlt | heq' | hgt
    · exact absurd heq (ne_of_gt (h2 _ hlt))
    · exact heq'
    · exact absurd heq (ne_of_lt (hfirst i hgt))

/-- Claim C8 (amended to `n ≥ 1`): `check_constraint` returns true iff in
every row `i` the first left-to-right position attaining the row minimum
is column `i`: the diagonal entry is a minimum of its row (`≤`
everywhere) and is strictly smaller than every entry in a column before
`i` (a tie at an earlier column makes the result false even when the
diagonal attains the row minimum).  The `n ≥ 1` bound is needed because
on the `0 × 0` matrix the code raises instead of returning a boolean. -/
theorem check_constraint_iff (t : ℕ → ℕ → ℚ) (n : ℕ) (hn : 1 ≤ n) :
    check_constraint t n = some true ↔
      ∀ i, i < n → (∀ j, j < n → t i i ≤ t i j) ∧ (∀ j, j < i → t i i < t i j) := by
  unfold check_constraint
  rw [if_neg (by omega), Option.some_inj, List.all_eq_true]
  constructor
  · intro h i hi
    exact (rowArgmin_eq_iff t n i hi).mp
      (Nat.beq_eq_true_eq _ _ ▸ h i (List.mem_range.mpr hi))
  · intro h i hi
    rw [Nat.beq_eq_true_eq]
    exact (rowArgmin_eq_iff t n i (List.mem_range.mp hi)).mpr (h i (List.mem_range.mp hi))

theorem check_constraint_iff_witness :
    1 ≤ 1 ∧
    (check_constraint (fun _ _ => (0 : ℚ)) 1 = some true ↔
      ∀ i, i < 1 → ((∀ j, j < 1 → (0 : ℚ) ≤ 0) ∧ (∀ j, j < i → (0 : ℚ) < 0))) :=
  ⟨le_refl 1, check_constraint_iff (fun _ _ => (0 : ℚ)) 1 (le_refl 1)⟩

/-- Claim C8's counterexample: on the `0 × 0` matrix the claimed
equivalence fails.  Its right-hand side holds vacuously, but the code does
not return true: `t.argmin(axis=1)` raises a `ValueError` on the empty
reduction axis (modelled as `none`), so `check_constraint` produces no
boolean at all. -/
theorem check_constraint_zero_matrix :
    ¬ (check_constraint (fun _ _ => (0 : ℚ)) 0 = some true ↔
      ∀ i, i < 0 → ((∀ j, j < 0 → (0 : ℚ) ≤ 0) ∧ (∀ j, j < i → (0 : ℚ) < 0))) := by
  intro h
  have h2 : check_constraint (fun _ _ => (0 : ℚ)) 0 = some true :=
    h.mpr (fun i hi => absurd hi (Nat.not_lt_zero i))
  rw [check_constraint, if_pos rfl] at h2
  cases h2

/-! ### The joint migration+coalescence objective (`helper_funcs.f_to_m`)

The unknown vector `u` has length `n²`: the first `n² - n` entries are the
off-diagonal migration rates `M(i,k)` (`k ≠ i`), row by row with the
diagonal skipped, the last `n` entries are the diagonal coalescence times
`T(i,i)`.  The Fst parameter `f` is the row-major flattening of the full
`n × n` Fst matrix.  Each NumPy slice of the source is mirrored by a
`drop`/`take` of the corresponding index-range list. -/

/-- The migration block `m = u[:n**2 - n]`. -/
def mList (u : ℕ → ℚ) (n : ℕ) : List ℚ := (List.range (n ^ 2 - n)).map u

/-- Entry `i` of the coalescence block `t = u[n**2 - n:]` (length `n`). -/
def tval (u : ℕ → ℚ) (n i : ℕ) : ℚ := u (n ^ 2 - n + i)

/-- The coalescence block `t = u[n**2 - n:]` as a list. -/
def tList (u : ℕ → ℚ) (n : ℕ) : List ℚ := (List.range n).map (tval u n)

/-- The flattened Fst matrix as a list of length `n²`. -/
def fList (f : ℕ → ℚ) (n : ℕ) : List ℚ := (List.range (n ^ 2)).map f

/-- `incoming_migrants_i = m[(n-1)*i : (n-1)*i + n-1]`. -/
def migr (u : ℕ → ℚ) (n i : ℕ) : List ℚ :=
  ((mList u n).drop ((n - 1) * i)).take (n - 1)

/-- `np.concatenate((t[:i], t[i+1:]))`: the diagonal times with index `i`
removed (`other_t` in the self equation, `t_vals_no_j` in the pair
equation). -/
def tOther (u : ℕ → ℚ) (n i : ℕ) : List ℚ :=
  (tList u n).take i ++ (tList u n).drop (i + 1)

/-- `np.concatenate((f[n*row : n*row+skip], f[n*row+1+skip : n*row+n]))`:
row `row` of the flattened Fst matrix with column `skip` removed.  The
source builds this three times: `f_i_values` is row `i` skip `i`,
`f_j_values` is row `j` skip `i`, and `f_i_new_values` is row `i`
skip `j`. -/
def fRowValues (f : ℕ → ℚ) (n row skip : ℕ) : List ℚ :=
  ((fList f n).drop (n * row)).take skip ++
    ((fList f n).drop (n * row + 1 + skip)).take (n - skip - 1)

/-- The elementwise map `(ones + v) / (ones - v)`. -/
def gratio (x : ℚ) : ℚ := (1 + x) / (1 - x)

/-- The NumPy dot product `a @ b`. -/
def dotL (a b : List ℚ) : ℚ := (List.zipWith (fun x y => x * y) a b).sum

/-- The self equation appended for population `i`:
`(1 + m_i) * t[i] - 0.5 * (incoming_migrants_i @ ((other_t + t[i]) * f_i_vector)) - 1`. -/
def selfEq (u f : ℕ → ℚ) (n i : ℕ) : ℚ :=
  (1 + (migr u n i).sum) * tval u n i -
    1 / 2 * dotL (migr u n i)
      (List.zipWith (fun x y => x * y)
        ((tOther u n i).map (fun x => x + tval u n i))
        ((fRowValues f n i i).map gratio)) - 1

/-- The pair equation appended in the inner loop (`j < i`):
`0.25 * ((m_i + m_j) * (t[i] + t[j]) * (1 + f[n*i+j]) / (1 - f[n*i+j])
- incoming_migrants_i @ ((other_t + t[j]) * f_j_vector)
- incoming_migrants_j @ ((t_vals_no_j + t[i]) * f_i_new_vector)) - 1`. -/
def pairEq (u f : ℕ → ℚ) (n i j : ℕ) : ℚ :=
  1 / 4 * (((migr u n i).sum + (migr u n j).sum) * (tval u n i + tval u n j) *
      ((1 + f (n * i + j)) / (1 - f (n * i + j))) -
    dotL (migr u n i)
      (List.zipWith (fun x y => x * y)
        ((tOther u n i).map (fun x => x + tval u n j))
        ((fRowValues f n j i).map gratio)) -
    dotL (migr u n j)
      (List.zipWith (fun x y => x * y)
        ((tOther u n j).map (fun x => x + tval u n i))
        ((fRowValues f n i j).map gratio))) - 1

/-- The list of equations accumulated by `f_to_m`: for each `i` the self
equation followed by the pair equations for `j = 0, …, i-1`. -/
def f_to_m_eqs (u f : ℕ → ℚ) (n : ℕ) : List ℚ :=
  (List.range n).flatMap (fun i =>
    selfEq u f n i :: (List.range i).map (fun j => pairEq u f n i j))

/-- Embedding of `helper_funcs.f_to_m`: the Euclidean norm of the
equation list. -/
noncomputable def f_to_m (u f : ℕ → ℚ) (n : ℕ) : ℝ :=
  Real.sqrt (((f_to_m_eqs u f n).map (fun x => ((x : ℝ)) ^ 2)).sum)

/-- The migration rate `M(i,k)` (for `k ≠ i`) as stored in the flat
migration block: row `i` holds the `n - 1` off-diagonal entries of source
row `i` with the diagonal skipped, so column `k` sits at offset `k` if
`k < i` and at offset `k - 1` if `k > i`. -/
def mEntry (u : ℕ → ℚ) (n i k : ℕ) : ℚ :=
  u ((n - 1) * i + (if k < i then k else k - 1))

/-- Total incoming migration `M_i = Σ_{k ≠ i} M(i,k)`. -/
def mTotal (u : ℕ → ℚ) (n i : ℕ) : ℚ :=
  (((List.range n).filter (fun k => k ≠ i)).map (mEntry u n i)).sum

/-- Modelled from the spec: the pair equation of §4.4 as the spec words
it, `0.25·[(M_i+M_j)(T(i,i)+T(j,j))(1+f(i,j))/(1−f(i,j))
− Σ_{k≠i,j} M(i,k)(T(k,k)+T(j,j))(1+f(i,k))/(1−f(i,k))
− Σ_{k≠i,j} M(j,k)(T(k,k)+T(i,i))(1+f(j,k))/(1−f(j,k))] − 1`,
with both migration-weighted sums ranging only over `k` distinct from both
`i` and `j`, and no diagonal Fst entry read.  This is the formula claim C1
asserts the code computes; it is compared against the code's `pairEq`. -/
def specPairEq (u f : ℕ → ℚ) (n i j : ℕ) : ℚ :=
  1 / 4 * ((mTotal u n i + mTotal u n j) * (tval u n i + tval u n j) *
      gratio (f (n * i + j)) -
    (((List.range n).filter (fun k => k ≠ i ∧ k ≠ j)).map
      (fun k => mEntry u n i k * (tval u n k + tval u n j) * gratio (f (n * i + k)))).sum -
    (((List.range n).filter (fun k => k ≠ i ∧ k ≠ j)).map
      (fun k => mEntry u n j k * (tval u n k + tval u n i) * gratio (f (n * j + k)))).sum) - 1

/-! ### List plumbing for the slice-to-sum translation -/

lemma range'_split (s b c : ℕ) :
    List.range' s (b + c) = List.range' s b ++ List.range' (s + b) c := by
  have h := List.range'_append s b c 1
  simp only [one_mul] at h
  rw [Nat.add_comm b c]
  exact h.symm

lemma range_split (a N : ℕ) (h : a ≤ N) :
    List.range N = List.range a ++ List.range' a (N - a) := by
  rw [List.range_eq_range', show N = a + (N - a) by omega, range'_split]
  simp [List.range_eq_range']

lemma range_drop (a N : ℕ) (h : a ≤ N) :
    (List.range N).drop a = List.range' a (N - a) := by
  rw [range_split a N h, List.drop_left' (by simp)]

lemma map_range_slice (v : ℕ → ℚ) (N a b : ℕ) (h : a + b ≤ N) :
    (((List.range N).map v).drop a).take b = (List.range' a b).map v := by
  rw [← List.map_drop, ← List.map_take, range_drop a N (by omega),
    show N - a = b + (N - a - b) by omega, range'_split,
    List.take_left' (by simp)]

lemma range'_map_shift (v : ℕ → ℚ) (s b : ℕ) :
    (List.range' s b).map v = (List.range b).map (fun c => v (s + c)) := by
  rw [List.range'_eq_map_range, List.map_map]
  rfl

lemma filter_ne_split (i n : ℕ) (h : i < n) :
    (List.range n).filter (fun k => k ≠ i) =
      List.range i ++ List.range' (i + 1) (n - i - 1) := by
  rw [range_split i n (le_of_lt h), List.filter_append]
  have h1 : (List.range i).filter (fun k => k ≠ i) = List.range i := by
    apply List.filter_eq_self.mpr
    intro a ha
    simp only [List.mem_range] at ha
    simp [Nat.ne_of_lt ha]
  have h2 : List.range' i (n - i) = i :: List.range' (i + 1) (n - i - 1) := by
    rw [show n - i = (n - i - 1) + 1 by omega]
    exact List.range'_succ i (n - i - 1) 1
  rw [h1, h2, List.filter_cons_of_neg (by simp)]
  congr 1
  apply List.filter_eq_self.mpr
  intro a ha
  rw [List.mem_range'_1] at ha
  simp only [ne_eq, decide_eq_true_eq]
  omega

lemma zipWith_map_same {α β γ δ : Type} (c : β → γ → δ) (f : α → β) (g : α → γ)
    (l : List α) :
    List.zipWith c (l.map f) (l.map g) = l.map (fun x => c (f x) (g x)) := by
  induction l with
  | nil => rfl
  | cons a l ih => simp [ih]

lemma nsq_sub (n : ℕ) : n ^ 2 - n = (n - 1) * n := by
  cases n with
  | zero => rfl
  | succ m =>
    simp only [Nat.succ_sub_one]
    exact Nat.sub_eq_of_eq_add (by ring)

/-! ### Canonical index form of the slices used by `f_to_m` -/

/-- The migration slice of row `i` lists `M(i,k)` for `k` running over
`0, …, n-1` with `i` removed. -/
lemma migr_eq (u : ℕ → ℚ) (n i : ℕ) (h : i < n) :
    migr u n i = ((List.range n).filter (fun k => k ≠ i)).map (mEntry u n i) := by
  have hb : (n - 1) * i + (n - 1) ≤ n ^ 2 - n := by
    rw [nsq_sub]
    calc (n - 1) * i + (n - 1) = (n - 1) * (i + 1) := by ring
      _ ≤ (n - 1) * n := Nat.mul_le_mul_left _ h
  unfold migr mList
  rw [map_range_slice u (n ^ 2 - n) ((n - 1) * i) (n - 1) hb,
    filter_ne_split i n h, List.map_append,
    show List.range' ((n - 1) * i) (n - 1) =
      List.range' ((n - 1) * i) (i + (n - i - 1)) by congr 1; omega,
    range'_split, List.map_append]
  congr 1
  · rw [range'_map_shift]
    apply List.map_congr_left
    intro a ha
    rw [List.mem_range] at ha
    unfold mEntry
    rw [if_pos ha]
  · rw [range'_map_shift, range'_map_shift]
    apply List.map_congr_left
    intro a ha
    rw [List.mem_range] at ha
    unfold mEntry
    rw [if_neg (by omega)]
    congr 1
    omega

/-- Removing index `i` from the diagonal block lists `T(k,k)` for
`k ≠ i`. -/
lemma tOther_eq (u : ℕ → ℚ) (n i : ℕ) (h : i < n) :
    tOther u n i = ((List.range n).filter (fun k => k ≠ i)).map (tval u n) := by
  unfold tOther tList
  rw [filter_ne_split i n h, List.map_append, ← List.map_take, ← List.map_drop,
    List.take_range, Nat.min_eq_left (le_of_lt h), range_drop (i + 1) n h,
    show n - (i + 1) = n - i - 1 by omega]

/-- Removing column `skip` from row `row` of the flattened Fst matrix
lists `f(row, k)` for `k ≠ skip`. -/
lemma fRow_eq (f : ℕ → ℚ) (n row skip : ℕ) (hr : row < n) (hs : skip < n) :
    fRowValues f n row skip =
      ((List.range n).filter (fun k => k ≠ skip)).map (fun k => f (n * row + k)) := by
  have hb : n * row + n ≤ n ^ 2 := by
    have h1 : n * (row + 1) ≤ n * n := Nat.mul_le_mul_left _ hr
    calc n * row + n = n * (row + 1) := by ring
      _ ≤ n * n := h1
      _ = n ^ 2 := (sq n).symm
  unfold fRowValues fList
  rw [map_range_slice f (n ^ 2) (n * row) skip (by omega),
    map_range_slice f (n ^ 2) (n * row + 1 + skip) (n - skip - 1) (by omega),
    filter_ne_split skip n hs, List.map_append]
  congr 1
  · rw [range'_map_shift]
  · rw [range'_map_shift, range'_map_shift]
    apply List.map_congr_left
    intro a ha
    congr 1
    ring

/-- Claim C1 (corrected): the pair residual actually appended by `f_to_m`
for the loop indices `j < i < n` (the unordered pair `{j, i}`).  Unlike
the spec's formula, the first migration-weighted sum ranges over all
`k ≠ i` (including `k = j`) and pairs `M(i,k)` with the Fst entry
`f(j, k)` of the *other* population's row, the second sum ranges over all
`k ≠ j` (including `k = i`) and uses `f(i, k)`; in particular the diagonal
entries `f(j,j)` and `f(i,i)` are read. -/
theorem pairEq_closed_form (u f : ℕ → ℚ) (n i j : ℕ) (hj : j < i) (hi : i < n) :
    pairEq u f n i j =
      1 / 4 * ((mTotal u n i + mTotal u n j) * (tval u n i + tval u n j) *
          gratio (f (n * i + j)) -
        (((List.range n).filter (fun k => k ≠ i)).map
          (fun k => mEntry u n i k *
            ((tval u n k + tval u n j) * gratio (f (n * j + k))))).sum -
        (((List.range n).filter (fun k => k ≠ j)).map
          (fun k => mEntry u n j k *
            ((tval u n k + tval u n i) * gratio (f (n * i + k))))).sum) - 1 := by
  have hjn : j < n := lt_trans hj hi
  unfold pairEq dotL mTotal gratio
  rw [migr_eq u n i hi, migr_eq u n j hjn, tOther_eq u n i hi, tOther_eq u n j hjn,
    fRow_eq f n j i hjn hi, fRow_eq f n i j hi hjn,
    List.map_map, List.map_map, List.map_map, List.map_map,
    zipWith_map_same, zipWith_map_same, zipWith_map_same, zipWith_map_same]
  rfl

theorem pairEq_closed_form_witness :
    (0 : ℕ) < 1 ∧ (1 : ℕ) < 2 ∧
    pairEq (fun _ => 1) (fun _ => 0) 2 1 0 =
      1 / 4 * ((mTotal (fun _ => 1) 2 1 + mTotal (fun _ => 1) 2 0) *
          (tval (fun _ => 1) 2 1 + tval (fun _ => 1) 2 0) *
          gratio ((fun _ => (0 : ℚ)) (2 * 1 + 0)) -
        (((List.range 2).filter (fun k => k ≠ 1)).map
          (fun k => mEntry (fun _ => 1) 2 1 k *
            ((tval (fun _ => 1) 2 k + tval (fun _ => 1) 2 0) *
              gratio ((fun _ => (0 : ℚ)) (2 * 0 + k))))).sum -
        (((List.range 2).filter (fun k => k ≠ 0)).map
          (fun k => mEntry (fun _ => 1) 2 0 k *
            ((tval (fun _ => 1) 2 k + tval (fun _ => 1) 2 1) *
              gratio ((fun _ => (0 : ℚ)) (2 * 1 + k))))).sum) - 1 :=
  ⟨Nat.zero_lt_one, Nat.one_lt_two,
    pairEq_closed_form (fun _ => 1) (fun _ => 0) 2 1 0 Nat.zero_lt_one Nat.one_lt_two⟩

/-- Claim C1's counterexample: at `n = 2` with all unknowns `1` and all
Fst values `0`, the residual the code appends for the unordered pair
`{0, 1}` is `-1`, while the formula the claim states (sums only over
`k ∉ {i, j}`, which are empty at `n = 2`) gives `0`. -/
theorem pairEq_spec_mismatch :
    pairEq (fun _ => 1) (fun _ => 0) 2 1 0 ≠ specPairEq (fun _ => 1) (fun _ => 0) 2 0 1 := by
  have hcode : pairEq (fun _ => 1) (fun _ => 0) 2 1 0 = -1 := by
    simp [pairEq, migr, mList, tList, tval, fList, tOther, fRowValues, gratio, dotL,
      show List.range 2 = [0, 1] from rfl]
    norm_num
  have hspec : specPairEq (fun _ => 1) (fun _ => 0) 2 0 1 = 0 := by
    simp [specPairEq, mTotal, mEntry, tval, gratio,
      show List.range 2 = [0, 1] from rfl]
    norm_num
  rw [hcode, hspec]
  norm_num

/-! ### The graph decomposition engine
(`helper_funcs.find_components`, `split_migration_matrix`, `split_migration`,
`reassemble_matrix`)

Fst/coalescence/migration matrices handled by this engine are embedded as
functions `ℕ → ℕ → WithTop ℚ`; the value `⊤` models the IEEE `inf` that
`reassemble_matrix` uses to initialize coalescence matrices.

`find_components` is a breadth-first search over the undirected nonzero
pattern of the matrix: vertex `0` seeds component `1`; whenever the FIFO
queue empties with unvisited vertices remaining, a new component is opened
at the smallest unvisited vertex.  The source picks the new start with
`for vertex in not_visited: ... break` over a CPython set of the integers
`1, …, n-1`; for such sets CPython stores element `i` in slot `i` of a
hash table that is always larger than `n` (growth keeps the table sparse,
`hash(i) = i`, removals never rehash), so iteration order is ascending and
the first element is the minimum — which is how the embedding models the
pick (`Finset.min'`).  The inner `for i in range(n)` loop of the source
adds each newly discovered neighbour to `visited`/`not_visited`/the
component list one element at a time; since the loop visits distinct `i`,
this equals the batched filter used here. -/

/-- The unvisited neighbours of `cur` discovered by the inner
`for i in range(n)` loop: `i` not yet visited with `M[cur,i] != 0 or
M[i,cur] != 0`, in increasing order of `i`. -/
def nbrs (M : ℕ → ℕ → WithTop ℚ) (n : ℕ) (vis : Finset ℕ) (cur : ℕ) : List ℕ :=
  (List.range n).filter (fun i => i ∉ vis ∧ (M cur i ≠ 0 ∨ M i cur ≠ 0))

lemma nbrs_nodup (M : ℕ → ℕ → WithTop ℚ) (n : ℕ) (vis : Finset ℕ) (cur : ℕ) :
    (nbrs M n vis cur).Nodup :=
  List.Nodup.filter _ (List.nodup_range n)

lemma nbrs_mem (M : ℕ → ℕ → WithTop ℚ) (n : ℕ) (vis : Finset ℕ) (cur : ℕ) (x : ℕ)
    (h : x ∈ nbrs M n vis cur) :
    x < n ∧ x ∉ vis ∧ (M cur x ≠ 0 ∨ M x cur ≠ 0) := by
  unfold nbrs at h
  rw [List.mem_filter, List.mem_range] at h
  simpa using h

lemma nbrs_mem_of (M : ℕ → ℕ → WithTop ℚ) (n : ℕ) (vis : Finset ℕ) (cur : ℕ) (x : ℕ)
    (h1 : x < n) (h2 : x ∉ vis) (h3 : M cur x ≠ 0 ∨ M x cur ≠ 0) :
    x ∈ nbrs M n vis cur := by
  unfold nbrs
  rw [List.mem_filter, List.mem_range]
  refine ⟨h1, ?_⟩
  simpa using And.intro h2 h3

lemma nbrs_toFinset_sub (M : ℕ → ℕ → WithTop ℚ) (n : ℕ) (vis : Finset ℕ) (cur : ℕ) :
    (nbrs M n vis cur).toFinset ⊆ Finset.range n \ vis := by
  intro x hx
  rw [List.mem_toFinset] at hx
  obtain ⟨h1, h2, _⟩ := nbrs_mem M n vis cur x hx
  rw [Finset.mem_sdiff, Finset.mem_range]
  exact ⟨h1, h2⟩

/-- The inner `while len(queue) != 0` loop: pop the queue head, append its
unvisited neighbours to the queue, the visited set and the current
component, and remove them from the unvisited set. -/
def bfs (M : ℕ → ℕ → WithTop ℚ) (n : ℕ) :
    List ℕ → Finset ℕ → Finset ℕ → List ℕ → Finset ℕ × Finset ℕ × List ℕ
  | [], vis, nv, comp => (vis, nv, comp)
  | c :: rest, vis, nv, comp =>
    bfs M n (rest ++ nbrs M n vis c) (vis ∪ (nbrs M n vis c).toFinset)
      (nv \ (nbrs M n vis c).toFinset) (comp ++ nbrs M n vis c)
termination_by queue vis _ _ => ((Finset.range n \ vis).card) * (n + 1) + queue.length
decreasing_by
  have hsub := nbrs_toFinset_sub M n vis c
  have hnd := nbrs_nodup M n vis c
  have hL : (nbrs M n vis c).toFinset.card = (nbrs M n vis c).length :=
    List.toFinset_card_of_nodup hnd
  have hsd : Finset.range n \ (vis ∪ (nbrs M n vis c).toFinset) =
      (Finset.range n \ vis) \ (nbrs M n vis c).toFinset := by
    ext x
    simp only [Finset.mem_sdiff, Finset.mem_union]
    tauto
  have hcard : (Finset.range n \ (vis ∪ (nbrs M n vis c).toFinset)).card =
      (Finset.range n \ vis).card - (nbrs M n vis c).toFinset.card := by
    rw [hsd]
    exact Finset.card_sdiff hsub
  have hle : (nbrs M n vis c).toFinset.card ≤ (Finset.range n \ vis).card :=
    Finset.card_le_card hsub
  have hmul : ((Finset.range n \ vis).card - (nbrs M n vis c).toFinset.card) * (n + 1) =
      (Finset.range n \ vis).card * (n + 1) - (nbrs M n vis c).toFinset.card * (n + 1) :=
    Nat.sub_mul _ _ _
  have hmul2 : (nbrs M n vis c).toFinset.card * (n + 1) ≤
      (Finset.range n \ vis).card * (n + 1) :=
    Nat.mul_le_mul_right _ hle
  have hge : (nbrs M n vis c).toFinset.card ≤ (nbrs M n vis c).toFinset.card * (n + 1) :=
    Nat.le_mul_of_pos_right _ (by omega)
  simp only [List.length_append, List.length_cons, hcard, hmul]
  omega

lemma bfs_nv_subset (M : ℕ → ℕ → WithTop ℚ) (n : ℕ) (q : List ℕ)
    (vis nv : Finset ℕ) (comp : List ℕ) :
    (bfs M n q vis nv comp).2.1 ⊆ nv := by
  induction q, vis, nv, comp using bfs.induct M n with
  | case1 vis nv comp =>
    rw [bfs]
  | case2 c rest vis nv comp ih =>
    rw [bfs]
    exact Finset.Subset.trans ih Finset.sdiff_subset

/-- The state invariant tying the visited set to the concatenation of the
component lists: `visited` is exactly the set of listed vertices, no vertex
is listed twice, and `visited` and `not_visited` partition `range n`. -/
def FCInv (n : ℕ) (vis nv : Finset ℕ) (l : List ℕ) : Prop :=
  vis = l.toFinset ∧ l.Nodup ∧ vis ∪ nv = Finset.range n ∧ Disjoint vis nv

lemma step_inv (M : ℕ → ℕ → WithTop ℚ) (n : ℕ) (vis nv : Finset ℕ) (l : List ℕ)
    (c : ℕ) (h : FCInv n vis nv l) :
    FCInv n (vis ∪ (nbrs M n vis c).toFinset) (nv \ (nbrs M n vis c).toFinset)
      (l ++ nbrs M n vis c) := by
  obtain ⟨hvis, hnd, hun, hdis⟩ := h
  refine ⟨?_, ?_, ?_, ?_⟩
  · rw [List.toFinset_append, hvis]
  · rw [List.nodup_append]
    refine ⟨hnd, nbrs_nodup M n vis c, ?_⟩
    intro x hx hx'
    obtain ⟨_, hnv, _⟩ := nbrs_mem M n vis c x hx'
    exact hnv (hvis ▸ List.mem_toFinset.mpr hx)
  · ext x
    simp only [Finset.mem_union, Finset.mem_sdiff, Finset.mem_range]
    constructor
    · rintro ((hx | hx) | ⟨hx, _⟩)
      · have : x ∈ Finset.range n := hun ▸ Finset.mem_union_left nv hx
        exact Finset.mem_range.mp this
      · exact (nbrs_mem M n vis c x (List.mem_toFinset.mp hx)).1
      · have : x ∈ Finset.range n := hun ▸ Finset.mem_union_right vis hx
        exact Finset.mem_range.mp this
    · intro hx
      have hx' : x ∈ vis ∪ nv := hun ▸ Finset.mem_range.mpr hx
      rcases Finset.mem_union.mp hx' with hv | hnv
      · exact Or.inl (Or.inl hv)
      · by_cases hb : x ∈ (nbrs M n vis c).toFinset
        · exact Or.inl (Or.inr hb)
        · exact Or.inr ⟨hnv, hb⟩
  · rw [Finset.disjoint_union_left]
    constructor
    · exact Finset.disjoint_of_subset_right Finset.sdiff_subset hdis
    · exact Finset.disjoint_sdiff

lemma bfs_inv (M : ℕ → ℕ → WithTop ℚ) (n : ℕ) (q : List ℕ)
    (vis nv : Finset ℕ) (comp : List ℕ) (pre : List ℕ)
    (h : FCInv n vis nv (pre ++ comp)) :
    FCInv n (bfs M n q vis nv comp).1 (bfs M n q vis nv comp).2.1
      (pre ++ (bfs M n q vis nv comp).2.2) := by
  induction q, vis, nv, comp using bfs.induct M n with
  | case1 vis nv comp =>
    rw [bfs]
    exact h
  | case2 c rest vis nv comp ih =>
    rw [bfs]
    apply ih
    rw [← List.append_assoc]
    exact step_inv M n vis nv (pre ++ comp) c h

lemma bfs_vis_mono (M : ℕ → ℕ → WithTop ℚ) (n : ℕ) (q : List ℕ)
    (vis nv : Finset ℕ) (comp : List ℕ) :
    vis ⊆ (bfs M n q vis nv comp).1 := by
  induction q, vis, nv, comp using bfs.induct M n with
  | case1 vis nv comp =>
    rw [bfs]
  | case2 c rest vis nv comp ih =>
    rw [bfs]
    exact Finset.Subset.trans Finset.subset_union_left ih

/-- Every visited vertex is either still in the queue or already fully
processed (all its neighbours are visited). -/
def BfsQueueInv (M : ℕ → ℕ → WithTop ℚ) (n : ℕ) (q : List ℕ) (vis : Finset ℕ) : Prop :=
  ∀ u ∈ vis, u ∈ q ∨ ∀ w, w < n → (M u w ≠ 0 ∨ M w u ≠ 0) → w ∈ vis

lemma bfs_closed (M : ℕ → ℕ → WithTop ℚ) (n : ℕ) (q : List ℕ)
    (vis nv : Finset ℕ) (comp : List ℕ) (hP : BfsQueueInv M n q vis) :
    ∀ u ∈ (bfs M n q vis nv comp).1, ∀ w, w < n → (M u w ≠ 0 ∨ M w u ≠ 0) →
      w ∈ (bfs M n q vis nv comp).1 := by
  induction q, vis, nv, comp using bfs.induct M n with
  | case1 vis nv comp =>
    rw [bfs]
    intro u hu w hw hedge
    rcases hP u hu with hq | hcl
    · exact absurd hq (List.not_mem_nil u)
    · exact hcl w hw hedge
  | case2 c rest vis nv comp ih =>
    rw [bfs]
    apply ih
    intro u hu
    rcases Finset.mem_union.mp hu with hv | hb
    · rcases hP u hv with hq | hcl
      · rcases List.mem_cons.mp hq with rfl | hr
        · right
          intro w hw hedge
          by_cases hwv : w ∈ vis
          · exact Finset.mem_union_left _ hwv
          · exact Finset.mem_union_right _
              (List.mem_toFinset.mpr (nbrs_mem_of M n vis u w hw hwv hedge))
        · exact Or.inl (List.mem_append_left _ hr)
      · right
        intro w hw hedge
        exact Finset.mem_union_left _ (hcl w hw hedge)
    · exact Or.inl (List.mem_append_right _ (List.mem_toFinset.mp hb))

/-- The outer `while len(not_visited) != 0` loop of `find_components`:
run the BFS, then (if unvisited vertices remain) open the next component
at the smallest unvisited vertex and continue; `acc` collects the finished
component lists and `cur` is the component currently being grown. -/
def fcLoop (M : ℕ → ℕ → WithTop ℚ) (n : ℕ) (queue : List ℕ) (vis nv : Finset ℕ)
    (cur : List ℕ) (acc : List (List ℕ)) : List (List ℕ) :=
  if _h : nv = ∅ then acc ++ [cur]
  else
    if h2 : (bfs M n queue vis nv cur).2.1 = ∅ then
      acc ++ [(bfs M n queue vis nv cur).2.2]
    else
      fcLoop M n
        [(bfs M n queue vis nv cur).2.1.min' (Finset.nonempty_iff_ne_empty.mpr h2)]
        (insert ((bfs M n queue vis nv cur).2.1.min'
          (Finset.nonempty_iff_ne_empty.mpr h2)) (bfs M n queue vis nv cur).1)
        ((bfs M n queue vis nv cur).2.1.erase
          ((bfs M n queue vis nv cur).2.1.min' (Finset.nonempty_iff_ne_empty.mpr h2)))
        [(bfs M n queue vis nv cur).2.1.min' (Finset.nonempty_iff_ne_empty.mpr h2)]
        (acc ++ [(bfs M n queue vis nv cur).2.2])
termination_by nv.card
decreasing_by
  have hsub := bfs_nv_subset M n queue vis nv cur
  have hmem := (bfs M n queue vis nv cur).2.1.min'_mem (Finset.nonempty_iff_ne_empty.mpr h2)
  have h1 := Finset.card_erase_of_mem hmem
  have h2' := Finset.card_le_card hsub
  have h4 : 0 < (bfs M n queue vis nv cur).2.1.card :=
    Finset.card_pos.mpr (Finset.nonempty_iff_ne_empty.mpr h2)
  omega

/-- Embedding of `helper_funcs.find_components`.  The returned value lists
the components in label order: entry `k` is the vertex list of component
`k+1` of the Python dict, in BFS discovery order. -/
def find_components (M : ℕ → ℕ → WithTop ℚ) (n : ℕ) : List (List ℕ) :=
  fcLoop M n [0] {0} ((Finset.range n).erase 0) [0] []



lemma perm_of_inv_empty (n : ℕ) (vis : Finset ℕ) (l : List ℕ)
    (h : FCInv n vis ∅ l) : l.Perm (List.range n) := by
  obtain ⟨hvis, hnd, hun, _⟩ := h
  rw [Finset.union_empty] at hun
  have hfin : l.toFinset = (List.range n).toFinset := by
    rw [← hvis, hun]
    ext x
    simp
  exact List.perm_of_nodup_nodup_toFinset_eq hnd (List.nodup_range n) hfin

lemma fcLoop_partition (M : ℕ → ℕ → WithTop ℚ) (n : ℕ) (queue : List ℕ)
    (vis nv : Finset ℕ) (cur : List ℕ) (acc : List (List ℕ))
    (hinv : FCInv n vis nv (acc.flatten ++ cur)) :
    ((fcLoop M n queue vis nv cur acc).flatten).Perm (List.range n) := by
  induction queue, vis, nv, cur, acc using fcLoop.induct M n with
  | case1 queue vis cur acc =>
    rw [fcLoop, dif_pos rfl, List.flatten_append]
    simp only [List.flatten_cons, List.flatten_nil, List.append_nil]
    exact perm_of_inv_empty n vis _ hinv
  | case2 queue vis nv cur acc h h2 =>
    rw [fcLoop, dif_neg h, dif_pos h2, List.flatten_append]
    simp only [List.flatten_cons, List.flatten_nil, List.append_nil]
    have hb := bfs_inv M n queue vis nv cur acc.flatten hinv
    rw [h2] at hb
    exact perm_of_inv_empty n _ _ hb
  | case3 queue vis nv cur acc h h2 ih =>
    rw [fcLoop, dif_neg h, dif_neg h2]
    apply ih
    have hb := bfs_inv M n queue vis nv cur acc.flatten hinv
    obtain ⟨hvis, hnd, hun, hdis⟩ := hb
    have hne := Finset.nonempty_iff_ne_empty.mpr h2
    have hmem := (bfs M n queue vis nv cur).2.1.min'_mem hne
    have hvnotvis : (bfs M n queue vis nv cur).2.1.min' hne ∉
        (bfs M n queue vis nv cur).1 :=
      Finset.disjoint_right.mp hdis hmem
    have hflat : (acc ++ [(bfs M n queue vis nv cur).2.2]).flatten =
        acc.flatten ++ (bfs M n queue vis nv cur).2.2 := by
      rw [List.flatten_append]
      simp
    refine ⟨?_, ?_, ?_, ?_⟩
    · rw [hflat, List.toFinset_append, ← hvis]
      ext x
      simp only [Finset.mem_insert, Finset.mem_union, List.toFinset_cons,
        List.toFinset_nil, Finset.not_mem_empty, or_false]
      tauto
    · rw [hflat, List.nodup_append]
      refine ⟨hnd, List.nodup_singleton _, ?_⟩
      intro x hx hx'
      rw [List.mem_singleton] at hx'
      subst hx'
      exact hvnotvis (hvis ▸ List.mem_toFinset.mpr hx)
    · ext x
      rw [Finset.mem_union, Finset.mem_insert, Finset.mem_erase,
        ← hun, Finset.mem_union]
      constructor
      · rintro ((rfl | hx) | ⟨_, hx⟩)
        · exact Or.inr hmem
        · exact Or.inl hx
        · exact Or.inr hx
      · rintro (hx | hx)
        · exact Or.inl (Or.inr hx)
        · by_cases hxv : x = (bfs M n queue vis nv cur).2.1.min' hne
          · exact Or.inl (Or.inl hxv)
          · exact Or.inr ⟨hxv, hx⟩
    · rw [Finset.disjoint_insert_left]
      exact ⟨Finset.not_mem_erase _ _,
        Finset.disjoint_of_subset_right (Finset.erase_subset _ _) hdis⟩

/-- Claim C5 (amended to `n ≥ 1`): the component lists returned by
`find_components` partition `{0, …, n-1}`: their concatenation is a
permutation of `range n`.  Component 1 is the BFS discovery list from
vertex `0`, labels increase by one per component and each new component
starts at the smallest unvisited index (all by construction of the
embedding, which models CPython ascending small-int set iteration), so the
mapping is a deterministic function of the matrix. -/
theorem find_components_partition (M : ℕ → ℕ → WithTop ℚ) (n : ℕ) (h : 1 ≤ n) :
    ((find_components M n).flatten).Perm (List.range n) := by
  apply fcLoop_partition
  refine ⟨by simp, by simp, ?_, ?_⟩
  · ext x
    simp only [Finset.mem_union, Finset.mem_singleton, Finset.mem_erase,
      Finset.mem_range]
    omega
  · rw [Finset.disjoint_left]
    intro x hx
    rw [Finset.mem_singleton] at hx
    subst hx
    exact Finset.not_mem_erase 0 _

/-- Embedding of `helper_funcs.split_migration_matrix`: the induced
submatrix `migration_matrix[np.ix_(component, component)]`, whose `(a, b)`
entry is the matrix entry at the `a`-th and `b`-th vertices of the
component list. -/
def split_migration_matrix (migration_matrix : ℕ → ℕ → WithTop ℚ)
    (connected_components : List (List ℕ)) : List (ℕ → ℕ → WithTop ℚ) :=
  connected_components.map (fun component a b =>
    migration_matrix (component.getD a 0) (component.getD b 0))

/-- Embedding of `helper_funcs.split_migration`: find the components and
split the matrix along them. -/
def split_migration (migration_matrix : ℕ → ℕ → WithTop ℚ) (n : ℕ) :
    List (ℕ → ℕ → WithTop ℚ) × List (List ℕ) :=
  (split_migration_matrix migration_matrix (find_components migration_matrix n),
    find_components migration_matrix n)

/-- One assignment `adjacency_matrix[np.ix_(indices, indices)] = sub_matrix`
of `reassemble_matrix`: positions with both coordinates in the component
receive the submatrix entry at the coordinates' positions in the component
list (first occurrence; the lists used by the source are duplicate-free),
all other positions keep their previous value. -/
def reassembleUpd (A : ℕ → ℕ → WithTop ℚ)
    (p : List ℕ × (ℕ → ℕ → WithTop ℚ)) : ℕ → ℕ → WithTop ℚ :=
  fun r c => if r ∈ p.1 ∧ c ∈ p.1 then p.2 (p.1.indexOf r) (p.1.indexOf c) else A r c

/-- Embedding of `helper_funcs.reassemble_matrix`: start from the all-ones
matrix for `which = "fst"` and the all-`inf` matrix otherwise, then
overwrite each component's induced block with its submatrix. -/
def reassemble_matrix (sub_matrices : List (ℕ → ℕ → WithTop ℚ))
    (connected_components : List (List ℕ)) (which : String) : ℕ → ℕ → WithTop ℚ :=
  (connected_components.zip sub_matrices).foldl reassembleUpd
    (fun _ _ => if which = "fst" then (1 : WithTop ℚ) else ⊤)

lemma getD_indexOf (l : List ℕ) (a : ℕ) (h : a ∈ l) :
    l.getD (l.indexOf a) 0 = a := by
  induction l with
  | nil => cases h
  | cons b t ih =>
    by_cases hab : b = a
    · subst hab
      rw [List.indexOf_cons_self, List.getD_cons_zero]
    · have hat : a ∈ t := by
        rcases List.mem_cons.mp h with h' | h'
        · exact absurd h'.symm hab
        · exact h'
      rw [List.indexOf_cons_ne _ hab, List.getD_cons_succ]
      exact ih hat

lemma indexOf_get_nodup (l : List ℕ) (hnd : l.Nodup) (i : ℕ) (hi : i < l.length) :
    l.indexOf (l.get ⟨i, hi⟩) = i := by
  induction l generalizing i with
  | nil => simp at hi
  | cons b t ih =>
    rcases List.nodup_cons.mp hnd with ⟨hbt, hndt⟩
    cases i with
    | zero => simp
    | succ j =>
      have hj : j < t.length := by simpa using hi
      have hmem : t.get ⟨j, hj⟩ ∈ t := List.get_mem t j hj
      have hne : b ≠ t.get ⟨j, hj⟩ := fun hbe => hbt (hbe ▸ hmem)
      have hget : (b :: t).get ⟨j + 1, hi⟩ = t.get ⟨j, hj⟩ := rfl
      rw [hget, List.indexOf_cons_ne _ hne, ih hndt j hj]

/-- The undirected edge relation used by the traversal: `a` and `b` are
vertices and at least one of the directed entries between them is
nonzero. -/
def adjacent (M : ℕ → ℕ → WithTop ℚ) (n a b : ℕ) : Prop :=
  a < n ∧ b < n ∧ (M a b ≠ 0 ∨ M b a ≠ 0)

lemma find_components_connected (M : ℕ → ℕ → WithTop ℚ) (n : ℕ) (hn : 1 ≤ n)
    (hconn : ∀ v, v < n → Relation.ReflTransGen (adjacent M n) 0 v) :
    ∃ l : List ℕ, find_components M n = [l] ∧ l.Nodup ∧ (∀ v, v ∈ l ↔ v < n) := by
  have hinv : FCInv n {0} ((Finset.range n).erase 0) (List.flatten [] ++ [0]) := by
    refine ⟨by simp, by simp, ?_, ?_⟩
    · ext x
      simp only [Finset.mem_union, Finset.mem_singleton, Finset.mem_erase,
        Finset.mem_range]
      omega
    · rw [Finset.disjoint_left]
      intro x hx
      rw [Finset.mem_singleton] at hx
      subst hx
      exact Finset.not_mem_erase 0 _
  by_cases h0 : (Finset.range n).erase 0 = ∅
  · refine ⟨[0], ?_, List.nodup_singleton 0, ?_⟩
    · rw [find_components, fcLoop, dif_pos h0, List.nil_append]
    · have hn1 : n = 1 := by
        by_contra hne
        have h1n : (1 : ℕ) ∈ (Finset.range n).erase 0 := by
          rw [Finset.mem_erase, Finset.mem_range]
          omega
        rw [h0] at h1n
        exact Finset.not_mem_empty 1 h1n
      intro v
      subst hn1
      simp only [List.mem_singleton]
      omega
  · have hq : BfsQueueInv M n [0] {0} := by
      intro u hu
      rw [Finset.mem_singleton] at hu
      subst hu
      exact Or.inl (List.mem_cons_self 0 [])
    have hcl := bfs_closed M n [0] {0} ((Finset.range n).erase 0) [0] hq
    have h0v : (0 : ℕ) ∈ (bfs M n [0] {0} ((Finset.range n).erase 0) [0]).1 :=
      bfs_vis_mono M n [0] {0} ((Finset.range n).erase 0) [0] (Finset.mem_singleton_self 0)
    have hreach : ∀ v, v < n →
        v ∈ (bfs M n [0] {0} ((Finset.range n).erase 0) [0]).1 := by
      intro v hv
      induction hconn v hv with
      | refl => exact h0v
      | tail _ hab ih =>
        exact hcl _ (ih hab.1) _ hab.2.1 hab.2.2
    have hb := bfs_inv M n [0] {0} ((Finset.range n).erase 0) [0] [] hinv
    obtain ⟨hvis, hnd, hun, hdis⟩ := hb
    have hempty : (bfs M n [0] {0} ((Finset.range n).erase 0) [0]).2.1 = ∅ := by
      rw [Finset.eq_empty_iff_forall_not_mem]
      intro x hx
      have hxr : x ∈ Finset.range n := hun ▸ Finset.mem_union_right _ hx
      have hxv := hreach x (Finset.mem_range.mp hxr)
      exact Finset.disjoint_left.mp hdis hxv hx
    refine ⟨(bfs M n [0] {0} ((Finset.range n).erase 0) [0]).2.2, ?_, ?_, ?_⟩
    · rw [find_components, fcLoop, dif_neg h0, dif_pos hempty, List.nil_append]
    · simpa using hnd
    · intro v
      have hvv : v ∈ (bfs M n [0] {0} ((Finset.range n).erase 0) [0]).2.2 ↔
          v ∈ (bfs M n [0] {0} ((Finset.range n).erase 0) [0]).1 := by
        rw [hvis]
        simp
      rw [hvv]
      rw [hempty, Finset.union_empty] at hun
      rw [hun, Finset.mem_range]

/-- Claim C6: if the undirected nonzero pattern of `M` is connected (every
vertex is reachable from vertex `0`), then `split_migration` followed by
`reassemble_matrix` reproduces `M` entrywise, for either value of the
`which` argument. -/
theorem split_reassemble_roundtrip (M : ℕ → ℕ → WithTop ℚ) (n : ℕ) (which : String)
    (r c : ℕ) (hconn : ∀ v, v < n → Relation.ReflTransGen (adjacent M n) 0 v)
    (hr : r < n) (hc : c < n) :
    reassemble_matrix (split_migration M n).1 (split_migration M n).2 which r c =
      M r c := by
  have hn : 1 ≤ n := by omega
  obtain ⟨l, hfc, _, hmem⟩ := find_components_connected M n hn hconn
  rw [split_migration]
  simp only [hfc, split_migration_matrix, List.map_cons, List.map_nil]
  rw [reassemble_matrix, List.zip_cons_cons, List.zip_nil_right, List.foldl_cons,
    List.foldl_nil, reassembleUpd]
  simp only
  rw [if_pos ⟨(hmem r).mpr hr, (hmem c).mpr hc⟩,
    getD_indexOf l r ((hmem r).mpr hr), getD_indexOf l c ((hmem c).mpr hc)]

lemma foldl_no_write (ps : List (List ℕ × (ℕ → ℕ → WithTop ℚ)))
    (A : ℕ → ℕ → WithTop ℚ) (r c : ℕ)
    (h : ∀ p ∈ ps, ¬(r ∈ p.1 ∧ c ∈ p.1)) :
    (ps.foldl reassembleUpd A) r c = A r c := by
  induction ps generalizing A with
  | nil => rfl
  | cons q ps ih =>
    rw [List.foldl_cons, ih _ (fun p hp => h p (List.mem_cons_of_mem q hp))]
    show (if r ∈ q.1 ∧ c ∈ q.1 then _ else A r c) = A r c
    exact if_neg (h q (List.mem_cons_self q ps))

lemma foldl_write (ps : List (List ℕ × (ℕ → ℕ → WithTop ℚ)))
    (A : ℕ → ℕ → WithTop ℚ) (r c : ℕ) (p : List ℕ × (ℕ → ℕ → WithTop ℚ))
    (hdisj : List.Pairwise (fun p q => ∀ x, x ∈ p.1 → x ∉ q.1) ps)
    (hmem : p ∈ ps) (hr : r ∈ p.1) (hc : c ∈ p.1) :
    (ps.foldl reassembleUpd A) r c = p.2 (p.1.indexOf r) (p.1.indexOf c) := by
  induction ps generalizing A with
  | nil => cases hmem
  | cons q ps ih =>
    rcases List.pairwise_cons.mp hdisj with ⟨hq, hps⟩
    rcases List.mem_cons.mp hmem with rfl | hp
    · rw [List.foldl_cons, foldl_no_write ps _ r c ?_]
      · show (if r ∈ p.1 ∧ c ∈ p.1 then p.2 (p.1.indexOf r) (p.1.indexOf c) else _) = _
        exact if_pos ⟨hr, hc⟩
      · intro q' hq' hrc
        exact (hq q' hq' r hr) hrc.1
    · rw [List.foldl_cons]
      exact ih (reassembleUpd A q) hps hp

lemma pairwise_zip {α β : Type} (R : α → α → Prop) (l : List α) (l' : List β)
    (h : List.Pairwise R l) :
    List.Pairwise (fun p q => R p.1 q.1) (l.zip l') := by
  induction l generalizing l' with
  | nil => exact List.Pairwise.nil
  | cons a l ih =>
    cases l' with
    | nil => exact List.Pairwise.nil
    | cons b l'' =>
      rw [List.zip_cons_cons]
      rcases List.pairwise_cons.mp h with ⟨ha, hl⟩
      refine List.Pairwise.cons ?_ (ih l'' hl)
      intro q hq
      exact ha q.1 (List.of_mem_zip hq).1

/-- Claim C7: for component lists that are duplicate-free and pairwise
disjoint and a matching list of submatrices, an entry whose row and column
indices do not lie in one common component equals `1` for `which = "fst"`
and `+∞` for the coalescence variant, and an entry inside a component's
block equals the corresponding submatrix entry (for every `which`). -/
theorem reassemble_matrix_entries (subs : List (ℕ → ℕ → WithTop ℚ))
    (comps : List (List ℕ)) (r c : ℕ)
    (hnd : ∀ l ∈ comps, l.Nodup)
    (hdisj : List.Pairwise (fun l₁ l₂ => ∀ x, x ∈ l₁ → x ∉ l₂) comps) :
    ((∀ l ∈ comps, ¬(r ∈ l ∧ c ∈ l)) →
      reassemble_matrix subs comps "fst" r c = 1 ∧
      reassemble_matrix subs comps "coalescence" r c = ⊤) ∧
    (∀ (which : String), ∀ p ∈ comps.zip subs,
      ∀ (a b : ℕ) (ha : a < p.1.length) (hb : b < p.1.length),
        reassemble_matrix subs comps which (p.1.get ⟨a, ha⟩) (p.1.get ⟨b, hb⟩) =
          p.2 a b) := by
  constructor
  · intro hcross
    have hno : ∀ p ∈ comps.zip subs, ¬(r ∈ p.1 ∧ c ∈ p.1) :=
      fun p hp => hcross p.1 (List.of_mem_zip hp).1
    constructor
    · rw [reassemble_matrix, foldl_no_write _ _ r c hno]
      simp
    · rw [reassemble_matrix, foldl_no_write _ _ r c hno]
      simp
  · intro which p hp a b ha hb
    have hzd := pairwise_zip (fun l₁ l₂ => ∀ x, x ∈ l₁ → x ∉ l₂) comps subs hdisj
    have hpa : p.1.get ⟨a, ha⟩ ∈ p.1 := List.get_mem p.1 a ha
    have hpb : p.1.get ⟨b, hb⟩ ∈ p.1 := List.get_mem p.1 b hb
    rw [reassemble_matrix, foldl_write _ _ _ _ p hzd hp hpa hpb,
      indexOf_get_nodup p.1 (hnd p.1 (List.of_mem_zip hp).1) a ha,
      indexOf_get_nodup p.1 (hnd p.1 (List.of_mem_zip hp).1) b hb]

/-- Claim C5's counterexample: for the (admittedly degenerate) `0 × 0`
matrix the code still returns `{1: [0]}`, which is not a partition of the
empty vertex set `{0, …, n-1} = ∅`. -/
theorem find_components_zero_not_partition :
    ¬ ((find_components (fun _ _ => (0 : WithTop ℚ)) 0).flatten).Perm (List.range 0) := by
  have h : find_components (fun _ _ => (0 : WithTop ℚ)) 0 = [[0]] := by
    rw [find_components, fcLoop, dif_pos (by simp), List.nil_append]
  rw [h]
  intro hp
  simpa using hp.length_eq

theorem find_components_partition_witness :
    1 ≤ 1 ∧
    ((find_components (fun _ _ => (0 : WithTop ℚ)) 1).flatten).Perm (List.range 1) :=
  ⟨le_refl 1, find_components_partition (fun _ _ => (0 : WithTop ℚ)) 1 (le_refl 1)⟩

theorem split_reassemble_roundtrip_witness :
    reassemble_matrix
      (split_migration (fun i j => if i = j then (0 : WithTop ℚ) else 1) 2).1
      (split_migration (fun i j => if i = j then (0 : WithTop ℚ) else 1) 2).2
      "fst" 0 1 = (fun i j => if i = j then (0 : WithTop ℚ) else 1) 0 1 := by
  have hconn : ∀ v, v < 2 → Relation.ReflTransGen
      (adjacent (fun i j => if i = j then (0 : WithTop ℚ) else 1) 2) 0 v := by
    intro v hv
    interval_cases v
    · exact Relation.ReflTransGen.refl
    · exact Relation.ReflTransGen.single ⟨by omega, by omega, Or.inl (by simp)⟩
  exact split_reassemble_roundtrip (fun i j => if i = j then (0 : WithTop ℚ) else 1)
    2 "fst" 0 1 hconn (by omega) (by omega)

theorem reassemble_matrix_entries_witness :
    reassemble_matrix [fun _ _ => (5 : WithTop ℚ), fun _ _ => 7] [[0], [1]]
      "fst" 0 1 = 1 ∧
    reassemble_matrix [fun _ _ => (5 : WithTop ℚ), fun _ _ => 7] [[0], [1]]
      "coalescence" 0 1 = ⊤ :=
  (reassemble_matrix_entries [fun _ _ => (5 : WithTop ℚ), fun _ _ => 7] [[0], [1]]
    0 1 (by simp) (by simp)).1 (by simp)

end PopulationStructure
